import Mathlib

/-!
Shallow embedding of the point-extraction-and-reconciliation engine of
`net_cdf_processing` (files `ClimateDataExtractorWithParallel.py` and
`ClimateDataExtractor.py`), together with proofs settling the frozen
claims about its specification.

Modelling conventions:
* A dataframe row holds the seven tracked climate variables; a missing
  value (pandas `NaN`) is `Option.none`, a present value is `some q`
  with `q : ℚ`.
* A dataframe (`DF`) is its list of `(date, row)` pairs in index order;
  dates are natural numbers.
* `pandas.DataFrame.last_valid_index` (ANY-non-NA row semantics) is
  modelled positionally by `lastValidPos`; `df.loc[:label]` on the
  unique-label index is `List.take (pos + 1)`, and `df.loc[:None]`
  (the result of slicing with a `None` bound) keeps the whole frame.
* `index.duplicated(keep="first")` de-duplication is `dedupAux []`.
* The in-place mutation done by `_convert_forecast_to_historical_units`
  (`df[cols] -= ...`) is modelled by an explicit store of dataframe
  cells (`DFStore`) with `.copy()` as cell allocation.
* Fallible entry points return `Except String _`; the error string names
  the Python exception the code would raise there.
-/

/-- One row of the extracted dataframes: the seven tracked variables,
`none` standing for a missing (NaN) value. -/
structure VarRow where
  hurs : Option ℚ
  pr : Option ℚ
  rsds : Option ℚ
  sfcWind : Option ℚ
  tas : Option ℚ
  tasmax : Option ℚ
  tasmin : Option ℚ
deriving DecidableEq

/-- A dataframe: list of (date, row) pairs in index order. -/
abbrev DF := List (Nat × VarRow)

/-- A grid point, identified by its literal coordinates. -/
abbrev Pt := ℚ × ℚ

/-- Row with every variable missing. -/
def noneRow : VarRow := ⟨none, none, none, none, none, none, none⟩

/-- Statement `forecast_df[["tas", "tasmax", "tasmin"]] -= 273.15` applied to one row
(Kelvin to Celsius; NaN stays NaN). -/
def subTemps (r : VarRow) : VarRow :=
  { r with
    tas := r.tas.map (fun v => v - 273.15)
    tasmax := r.tasmax.map (fun v => v - 273.15)
    tasmin := r.tasmin.map (fun v => v - 273.15) }

/-- Statement `forecast_df[["rsds"]] *= 24` applied to one row. -/
def mulRsds (r : VarRow) : VarRow :=
  { r with rsds := r.rsds.map (fun v => v * 24) }

/-- Value transform of `_convert_forecast_to_historical_units`
(`ClimateDataExtractorWithParallel.py` lines 16-20): temperatures shifted
by -273.15 then rsds scaled by 24, all other columns untouched. -/
def convertRow (r : VarRow) : VarRow := mulRsds (subTemps r)

/-- Method `_convert_forecast_to_historical_units` on a whole dataframe:
the two column-wise in-place statements, viewed row-wise. -/
def convert_forecast_to_historical_units (l : DF) : DF :=
  l.map (fun x => (x.1, convertRow x.2))

/-- A row counts as valid for `last_valid_index` when ANY of its entries
is non-NA (pandas `notna().any(axis=1)` semantics). -/
def rowAnyValid (r : VarRow) : Bool :=
  r.hurs.isSome || r.pr.isSome || r.rsds.isSome || r.sfcWind.isSome ||
  r.tas.isSome || r.tasmax.isSome || r.tasmin.isSome

/-- Position (from the front) of the last row with any non-NA entry:
`df.last_valid_index()` returns the label at this position, or `None`
when the frame has no such row. -/
def lastValidPos : DF → Option Nat
  | [] => none
  | x :: xs =>
    match lastValidPos xs with
    | some p => some (p + 1)
    | none => if rowAnyValid x.2 then some 0 else none

/-- Slicing `historical_df.loc[:historical_df.last_valid_index()]`: slice up to and
including the last valid label; when `last_valid_index()` is `None`,
`loc[:None]` is an unbounded slice and keeps the whole frame. -/
def truncateToLastValid (hist : DF) : DF :=
  match lastValidPos hist with
  | none => hist
  | some p => hist.take (p + 1)

/-- Filtering `combined_df[~combined_df.index.duplicated(keep="first")]`: keep each
row whose date has not already appeared earlier; `seen` accumulates the
dates seen so far. -/
def dedupAux (seen : List Nat) : DF → DF
  | [] => []
  | x :: xs =>
    if x.1 ∈ seen then dedupAux seen xs
    else x :: dedupAux (x.1 :: seen) xs

/-- Method `_combine_dataframes` (`ClimateDataExtractorWithParallel.py` lines
30-37): truncate the historical frame at its last valid index, append the
forecast frame, drop later duplicate dates. -/
def combine_dataframes (hist fc : DF) : DF :=
  dedupAux [] (truncateToLastValid hist ++ fc)

/-- Dates of a dataframe, in row order. -/
def datesOf (l : DF) : List Nat := l.map (fun x => x.1)

/-- First row carrying date `d`, as pandas label lookup would return it. -/
def lookupDate (d : Nat) (l : DF) : Option (Nat × VarRow) :=
  l.find? (fun x => x.1 == d)

/-- The date index is strictly increasing. -/
abbrev StrictIncDates (l : DF) : Prop := l.Pairwise (fun a b => a.1 < b.1)

/-- No date occurs twice in the index. -/
abbrev NoDupDates (l : DF) : Prop := (datesOf l).Nodup

/-- On every date shared by (the inputs) `hi` and `fc`, the combined frame
retains the historical row. -/
def histWinsOnShared (hi fc : DF) : Bool :=
  (datesOf hi).all fun d =>
    !(decide (d ∈ datesOf fc)) ||
      decide (lookupDate d (combine_dataframes hi fc) = lookupDate d hi)

/-- A row counts as valid in the spec sense when EVERY entry is non-NA
(the spec words: "no missing value in any variable"). -/
def rowAllValid (r : VarRow) : Bool :=
  r.hurs.isSome && r.pr.isSome && r.rsds.isSome && r.sfcWind.isSome &&
  r.tas.isSome && r.tasmax.isSome && r.tasmin.isSome

/-- Position of the last row with no missing value at all, following the
spec's words rather than the code. -/
def specLastAllValidPos : DF → Option Nat
  | [] => none
  | x :: xs =>
    match specLastAllValidPos xs with
    | some p => some (p + 1)
    | none => if rowAllValid x.2 then some 0 else none

/-- Truncation following the spec's words: keep dates up to the last
all-valid one, and an all-missing series truncates to EMPTY. -/
def specTruncateAllValid (hist : DF) : DF :=
  match specLastAllValidPos hist with
  | none => []
  | some p => hist.take (p + 1)

/-- Combiner following the spec's words for the last-valid-index step,
to be compared with `combine_dataframes` from the source. -/
def specCombineAllValid (hist fc : DF) : DF :=
  dedupAux [] (specTruncateAllValid hist ++ fc)

/-! Fixture rows and frames used as concrete inputs by witnesses and
counterexamples. -/

/-- Row with every variable present. -/
def fullRow1 : VarRow :=
  ⟨some 1, some 2, some 3, some 4, some 5, some 6, some 7⟩

/-- A second all-present row, for forecast-side fixtures. -/
def fullRow2 : VarRow :=
  ⟨some 10, some 20, some 30, some 40, some 50, some 60, some 70⟩

/-- Row with exactly one variable present (partially missing). -/
def halfRow : VarRow :=
  ⟨some 1, none, none, none, none, none, none⟩

/-- Row whose temperature is 280 K, used to watch the unit conversion. -/
def tasRow : VarRow :=
  ⟨none, none, none, none, some 280, none, none⟩

/-- A loaded gridded dataset for extraction purposes: its coordinate axes
and, abstractly, the per-point series `_extract_point_data` produces from
it (nearest-cell lookup and date normalisation folded into `seriesAt`). -/
structure GridDS where
  lats : List ℚ
  lons : List ℚ
  seriesAt : ℚ → ℚ → DF

/-- Call `np.where(mask)`: row-major (lat index, lon index) pairs of the true
mask cells. -/
def validIdx (mask : List (List Bool)) : List (Nat × Nat) :=
  (mask.enum.map fun r =>
    ((r.2.enum.filter fun c => c.2).map fun c => (r.1, c.1))).flatten

/-- Coordinates of the valid cells: `lat_grid[i, j] = lats[i]` and
`lon_grid[i, j] = lons[j]` from the meshgrid, read off at `np.where(mask)`
in row-major order. -/
def validPoints (mask : List (List Bool)) (lats lons : List ℚ) : List Pt :=
  (validIdx mask).map fun ij => (lats.getD ij.1 0, lons.getD ij.2 0)

/-- Per-point work shared by both extraction paths: extract historical and
forecast series, convert the forecast units, combine. -/
def pointResult (h f : GridDS) (p : Pt) : DF :=
  combine_dataframes (h.seriesAt p.1 p.2)
    (convert_forecast_to_historical_units (f.seriesAt p.1 p.2))

/-- The Python guard `if max_points and i >= max_points`: true only when
`max_points` is a truthy value (not `None`, not `0`) already reached. -/
def capReached (mp : Option Nat) (i : Nat) : Bool :=
  match mp with
  | none => false
  | some m => m != 0 && decide (m ≤ i)

/-- The `enumerate` loop with the early `break`: process elements in order,
stopping as soon as the cap guard fires at the current position `i`. -/
def capLoop (mp : Option Nat) : Nat → List α → List α
  | _, [] => []
  | i, x :: xs => if capReached mp i then [] else x :: capLoop mp (i + 1) xs

/-- Elements actually processed by a capped loop started at position 0. -/
def capPoints (mp : Option Nat) (l : List α) : List α := capLoop mp 0 l

/-- Loop `for i in range(0, len(points), b): points[i : i + b]`, fuelled by the
list length (enough iterations whenever `1 ≤ b`). -/
def chunksAux (b : Nat) : Nat → List α → List (List α)
  | 0, _ => []
  | _, [] => []
  | fuel + 1, xs => xs.take b :: chunksAux b fuel (xs.drop b)

/-- The contiguous batches of size `b` formed by the batching loop of
`extract_variables_over_years_parallel`. -/
def chunks (b : Nat) (xs : List α) : List (List α) := chunksAux b xs.length xs

/-- Expression `max_points=(max_points - points_processed) if max_points else None`:
the remaining budget handed to a worker at submission time. -/
def remainingBudget (mp : Option Nat) (pp : Nat) : Option Nat :=
  match mp with
  | none => none
  | some m => if m = 0 then none else some (m - pp)

/-- The submission loop (`ClimateDataExtractorWithParallel.py` lines
167-196): walk the batches, stop once `points_processed` trips the cap
guard, otherwise submit the batch with its remaining budget and advance
`points_processed` by the full batch length. -/
def submitBatches (mp : Option Nat) : Nat → List (List Pt) → List (List Pt × Option Nat)
  | _, [] => []
  | pp, c :: cs =>
    if capReached mp pp then []
    else (c, remainingBudget mp pp) :: submitBatches mp (pp + c.length) cs

/-- Method `_process_point_batch` (lines 52-70): run the capped loop over the
batch, producing one keyed combined series per processed point. -/
def process_point_batch (h f : GridDS) (batch : List Pt) (mp : Option Nat) :
    List (Pt × DF) :=
  (capPoints mp batch).map fun p => (p, pointResult h f p)

/-- Fan-in over the submitted batch futures: `df_dict.update(...)` per
future; keys are unique across batches, so the mapping's entries are the
concatenation of the per-batch results. -/
def runBatches (h f : GridDS) (subs : List (List Pt × Option Nat)) :
    List (Pt × DF) :=
  (subs.map fun s => process_point_batch h f s.1 s.2).flatten

/-- Method `_load_netcdf_data` (lines 39-50): accumulate the per-year glob hits;
return "no dataset" (`None`) when no file matched at all. -/
def load_netcdf_data (globsPerYear : List (List String)) : Option (List String) :=
  let paths := globsPerYear.flatten
  if paths.isEmpty then none else some paths

/-- Method `extract_variables_over_years` (lines 72-126). A missing dataset makes
`._load_netcdf_data(...).load()` raise `AttributeError` on `None` BEFORE
the `return {}` guard; an empty valid-point sequence leaves the loop
variable `count` unbound, so the final progress print raises
`UnboundLocalError`. Otherwise every capped point is processed in mask
order. -/
def extract_variables_over_years (hist fc : Option GridDS)
    (mask : List (List Bool)) (mp : Option Nat) :
    Except String (List (Pt × DF)) :=
  match hist with
  | none => Except.error "AttributeError"
  | some h =>
    match fc with
    | none => Except.error "AttributeError"
    | some f =>
      let pts := validPoints mask h.lats h.lons
      if pts.isEmpty then Except.error "UnboundLocalError"
      else Except.ok ((capPoints mp pts).map fun p => (p, pointResult h f p))

/-- Method `extract_variables_over_years_parallel` (lines 128-207). No `.load()`
here, so a missing dataset reaches the guard and yields the empty mapping;
otherwise the valid points are chunked (explicit batch size, or
`max(1, valid_count // cpu_count)`), batches are submitted under the
global cap, and the futures' results are merged. -/
def extract_variables_over_years_parallel (hist fc : Option GridDS)
    (mask : List (List Bool)) (bs : Option Nat) (mp : Option Nat) (ncpu : Nat) :
    Except String (List (Pt × DF)) :=
  match hist, fc with
  | some h, some f =>
    let pts := validPoints mask h.lats h.lons
    let b := match bs with
      | some v => v
      | none => max 1 ((validIdx mask).length / max ncpu 1)
    Except.ok (runBatches h f (submitBatches mp 0 (chunks b pts)))
  | _, _ => Except.ok []

/-- Method `extract_amber_data` (`ClimateDataExtractor.py` lines 69-101): same
`.load()`-on-`None` and unbound-`count` hazards; extracts the raw
historical series per point, no conversion, no combination. -/
def extract_amber_data (amber : Option GridDS) (pts : List Pt)
    (mp : Option Nat) : Except String (List (Pt × DF)) :=
  match amber with
  | none => Except.error "AttributeError"
  | some a =>
    if pts.isEmpty then Except.error "UnboundLocalError"
    else Except.ok ((capPoints mp pts).map fun p => (p, a.seriesAt p.1 p.2))

/-- Method `extract_forecast_data` (`ClimateDataExtractor.py` lines 103-137):
like `extract_amber_data` but unit-converting a copy of each extracted
series. -/
def extract_forecast_data (fc : Option GridDS) (pts : List Pt)
    (mp : Option Nat) : Except String (List (Pt × DF)) :=
  match fc with
  | none => Except.error "AttributeError"
  | some f =>
    if pts.isEmpty then Except.error "UnboundLocalError"
    else
      Except.ok ((capPoints mp pts).map fun p =>
        (p, convert_forecast_to_historical_units (f.seriesAt p.1 p.2)))

/-- A store of dataframe objects, making the in-place column assignments
of the unit converter observable: each cell is one live dataframe. -/
structure DFStore where
  cells : List DF

/-- Read the dataframe held in cell `r`. -/
def readCell (s : DFStore) (r : Nat) : DF := s.cells.getD r []

/-- Call `_convert_forecast_to_historical_units(df)` as executed: the column
assignments write through to the argument object, and the same object
(reference) is returned. -/
def convert_units_inplace (s : DFStore) (r : Nat) : DFStore × Nat :=
  (⟨s.cells.set r (convert_forecast_to_historical_units (readCell s r))⟩, r)

/-- Call `df.copy()`: allocate a fresh cell holding the same values. -/
def copyCell (s : DFStore) (r : Nat) : DFStore × Nat :=
  (⟨s.cells ++ [readCell s r]⟩, s.cells.length)

/-- The sequential path's call
`_convert_forecast_to_historical_units(forecast_df.copy())` (line 115):
copy first, then convert the copy in place. -/
def convertViaCopy (s : DFStore) (r : Nat) : DFStore × Nat :=
  let sc := copyCell s r
  convert_units_inplace sc.1 sc.2

/-- Store fixture: one live forecast dataframe with a 280 K temperature. -/
def storeFix : DFStore := ⟨[[(0, tasRow)]]⟩

/-- Historical grid fixture for witnesses: constant series of two valid
dates. -/
def histGridFix : GridDS :=
  ⟨[1, 2], [3, 4, 5, 6, 7], fun _ _ => [(0, fullRow1), (1, fullRow1)]⟩

/-- Forecast grid fixture for witnesses: constant series overlapping the
historical fixture on date 1. -/
def fcGridFix : GridDS :=
  ⟨[1, 2], [3, 4, 5, 6, 7], fun _ _ => [(1, fullRow2), (2, fullRow2)]⟩

/-- Mask fixture with ten true cells (the spec's cap example: 10 valid
points, batch size 3, cap 5). -/
def maskFix : List (List Bool) :=
  [[true, true, true, true, true], [true, true, true, true, true]]

/-- All-false mask fixture. -/
def maskFalse : List (List Bool) := [[false, false], [false, false]]

/-! Helper lemmas about the capped loop. -/

/-- Without a cap the loop processes the whole list. -/
theorem capLoop_none (l : List α) : ∀ i, capLoop none i l = l := by
  induction l with
  | nil => intro i; rfl
  | cons x xs ih =>
    intro i
    simp [capLoop, capReached, ih]

/-- A zero cap is falsy, so the guard never fires. -/
theorem capLoop_some_zero (l : List α) : ∀ i, capLoop (some 0) i l = l := by
  induction l with
  | nil => intro i; rfl
  | cons x xs ih =>
    intro i
    simp [capLoop, capReached, ih]

/-- With a positive cap the loop started at `i` takes `m - i` elements. -/
theorem capLoop_take (m : Nat) (hm : m ≠ 0) (l : List α) :
    ∀ i, capLoop (some m) i l = l.take (m - i) := by
  induction l with
  | nil => intro i; simp [capLoop]
  | cons x xs ih =>
    intro i
    by_cases hi : m ≤ i
    · have h0 : m - i = 0 := Nat.sub_eq_zero_of_le hi
      simp [capLoop, capReached, hm, hi, h0]
    · have hlt : i < m := Nat.lt_of_not_le hi
      have hsub : m - i = (m - (i + 1)) + 1 := by omega
      simp [capLoop, capReached, hm, hi, ih, hsub]

theorem capPoints_none (l : List α) : capPoints none l = l := capLoop_none l 0

theorem capPoints_some_zero (l : List α) : capPoints (some 0) l = l :=
  capLoop_some_zero l 0

theorem capPoints_take (m : Nat) (hm : m ≠ 0) (l : List α) :
    capPoints (some m) l = l.take m := by
  simpa using capLoop_take m hm l 0

theorem capPoints_length_le (m : Nat) (hm : m ≠ 0) (l : List α) :
    (capPoints (some m) l).length ≤ m := by
  rw [capPoints_take m hm l, List.length_take]
  omega

/-! Helper lemmas about the batching loop. -/

theorem chunksAux_nil (b : Nat) : ∀ fuel, chunksAux b fuel ([] : List α) = [] := by
  intro fuel
  cases fuel <;> rfl

theorem chunksAux_flatten (b : Nat) (hb : 1 ≤ b) :
    ∀ fuel (xs : List α), xs.length ≤ fuel → (chunksAux b fuel xs).flatten = xs := by
  intro fuel
  induction fuel with
  | zero =>
    intro xs hxs
    have : xs = [] := List.eq_nil_of_length_eq_zero (Nat.le_zero.mp hxs)
    subst this
    rfl
  | succ n ih =>
    intro xs hxs
    cases xs with
    | nil => rfl
    | cons x t =>
      have hlen : (List.drop b (x :: t)).length ≤ n := by
        simp [List.length_drop]
        have := List.length_cons x t ▸ hxs
        omega
      simp only [chunksAux, List.flatten_cons, ih _ hlen, List.take_append_drop]

/-- Concatenating the batches reproduces the input point sequence. -/
theorem chunks_flatten (b : Nat) (hb : 1 ≤ b) (xs : List α) :
    (chunks b xs).flatten = xs :=
  chunksAux_flatten b hb xs.length xs (Nat.le_refl _)

theorem chunksAux_shape (b : Nat) (hb : 1 ≤ b) :
    ∀ fuel (xs : List α), xs.length ≤ fuel →
      (∀ c ∈ (chunksAux b fuel xs).dropLast, c.length = b) ∧
      (∀ c ∈ chunksAux b fuel xs, 0 < c.length ∧ c.length ≤ b) := by
  intro fuel
  induction fuel with
  | zero =>
    intro xs hxs
    have : xs = [] := List.eq_nil_of_length_eq_zero (Nat.le_zero.mp hxs)
    subst this
    exact ⟨by intro c hc; simp [chunksAux] at hc, by intro c hc; simp [chunksAux] at hc⟩
  | succ n ih =>
    intro xs hxs
    cases xs with
    | nil =>
      exact ⟨by intro c hc; simp [chunksAux] at hc, by intro c hc; simp [chunksAux] at hc⟩
    | cons x t =>
      have hlen : (List.drop b (x :: t)).length ≤ n := by
        simp [List.length_drop]
        have := List.length_cons x t ▸ hxs
        omega
      have ihd := ih _ hlen
      constructor
      · intro c hc
        simp only [chunksAux] at hc
        rcases hdrop : chunksAux b n (List.drop b (x :: t)) with _ | ⟨c', cs'⟩
        · rw [hdrop] at hc
          simp at hc
        · rw [hdrop] at hc
          rw [List.dropLast_cons₂] at hc
          rcases List.mem_cons.mp hc with h | h
          · subst h
            have hne : List.drop b (x :: t) ≠ [] := by
              intro hnil
              rw [hnil, chunksAux_nil] at hdrop
              exact List.cons_ne_nil c' cs' hdrop.symm
            have hblt : b < t.length + 1 := by
              by_contra hge
              refine hne (List.drop_eq_nil_of_le ?_)
              simp only [List.length_cons]
              omega
            rw [List.length_take]
            simp only [List.length_cons]
            omega
          · exact ihd.1 c (hdrop ▸ h)
      · intro c hc
        simp only [chunksAux] at hc
        rcases List.mem_cons.mp hc with h | h
        · subst h
          constructor
          · rw [List.length_take]
            simp only [List.length_cons]
            omega
          · rw [List.length_take]
            omega
        · exact ihd.2 c h

/-! Helper lemmas about batch submission under the global cap. -/

/-- Once the submitted count has reached a positive cap, nothing more is
submitted. -/
theorem submitBatches_stop (m : Nat) (hm : m ≠ 0) (pp : Nat) (hpp : m ≤ pp)
    (cs : List (List Pt)) : submitBatches (some m) pp cs = [] := by
  cases cs with
  | nil => rfl
  | cons c cs' => simp [submitBatches, capReached, hm, hpp]

/-- Every submitted batch carries the positive remaining budget computed
from the points submitted before it. -/
theorem submitBatches_mem_budget (m : Nat) (hm : m ≠ 0) :
    ∀ (cs : List (List Pt)) (pp : Nat) (c : List Pt) (bud : Option Nat),
      (c, bud) ∈ submitBatches (some m) pp cs →
      ∃ ppc, pp ≤ ppc ∧ ppc < m ∧ bud = some (m - ppc) := by
  intro cs
  induction cs with
  | nil => intro pp c bud h; simp [submitBatches] at h
  | cons c' cs' ih =>
    intro pp c bud h
    by_cases hpp : m ≤ pp
    · rw [submitBatches, if_pos (by simp [capReached, hm, hpp])] at h
      simp at h
    · rw [submitBatches, if_neg (by simp [capReached, hm, hpp])] at h
      rcases List.mem_cons.mp h with h | h
      · refine ⟨pp, Nat.le_refl _, Nat.lt_of_not_le hpp, ?_⟩
        have : bud = remainingBudget (some m) pp := (Prod.mk.injEq _ _ _ _ ▸ h).2
        simp [remainingBudget, hm] at this
        simp [this]
      · rcases ih (pp + c'.length) c bud h with ⟨ppc, hle, hlt, hbud⟩
        exact ⟨ppc, Nat.le_trans (Nat.le_add_right _ _) hle, hlt, hbud⟩

/-- The processed-point total across all submitted batches never exceeds
the remaining global budget. -/
theorem submitBatches_processed_le (m : Nat) (hm : m ≠ 0) :
    ∀ (cs : List (List Pt)) (pp : Nat),
      ((submitBatches (some m) pp cs).map
        (fun s => (capPoints s.2 s.1).length)).sum ≤ m - pp := by
  intro cs
  induction cs with
  | nil => intro pp; simp [submitBatches]
  | cons c cs' ih =>
    intro pp
    by_cases hpp : m ≤ pp
    · rw [submitBatches, if_pos (by simp [capReached, hm, hpp])]
      simp
    · rw [submitBatches, if_neg (by simp [capReached, hm, hpp])]
      have hbud : remainingBudget (some m) pp = some (m - pp) := by
        simp [remainingBudget, hm]
      have hm' : m - pp ≠ 0 := by omega
      have hlen : (capPoints (remainingBudget (some m) pp) c).length ≤ m - pp := by
        rw [hbud]
        exact capPoints_length_le (m - pp) hm' c
      have htail := ih (pp + c.length)
      simp only [List.map_cons, List.sum_cons]
      have hcap : (capPoints (remainingBudget (some m) pp) c).length ≤ c.length := by
        rw [hbud, capPoints_take _ hm']
        simp [List.length_take]
      omega

/-! Helper lemmas about de-duplication and label lookup. -/

/-- One step of `dedupAux` on a cons cell. -/
theorem dedupAux_cons (seen : List Nat) (x : Nat × VarRow) (xs : DF) :
    dedupAux seen (x :: xs) =
      if x.1 ∈ seen then dedupAux seen xs
      else x :: dedupAux (x.1 :: seen) xs := rfl

/-- Lookup skips a row with a different date. -/
theorem lookupDate_cons_ne (d : Nat) (x : Nat × VarRow) (xs : DF)
    (h : x.1 ≠ d) : lookupDate d (x :: xs) = lookupDate d xs := by
  simp only [lookupDate]
  exact List.find?_cons_of_neg _ (by simpa using h)

/-- Lookup stops at a row carrying the date. -/
theorem lookupDate_cons_eq (d : Nat) (x : Nat × VarRow) (xs : DF)
    (h : x.1 = d) : lookupDate d (x :: xs) = some x := by
  simp only [lookupDate]
  exact List.find?_cons_of_pos _ (by simpa using h)

/-- De-duplication only drops rows. -/
theorem dedupAux_sublist : ∀ (seen : List Nat) (l : DF),
    (dedupAux seen l).Sublist l := by
  intro seen l
  induction l generalizing seen with
  | nil => simp [dedupAux]
  | cons x xs ih =>
    rw [dedupAux_cons]
    by_cases hx : x.1 ∈ seen
    · rw [if_pos hx]
      exact (ih seen).cons x
    · rw [if_neg hx]
      exact (ih (x.1 :: seen)).cons₂ x

/-- A retained row comes from the input and its date was not yet seen. -/
theorem mem_dedupAux : ∀ (seen : List Nat) (l : DF) (x : Nat × VarRow),
    x ∈ dedupAux seen l → x ∈ l ∧ x.1 ∉ seen := by
  intro seen l
  induction l generalizing seen with
  | nil => intro x hx; simp [dedupAux] at hx
  | cons y ys ih =>
    intro x hx
    rw [dedupAux_cons] at hx
    by_cases hy : y.1 ∈ seen
    · rw [if_pos hy] at hx
      rcases ih seen x hx with ⟨hmem, hns⟩
      exact ⟨List.mem_cons_of_mem y hmem, hns⟩
    · rw [if_neg hy] at hx
      rcases List.mem_cons.mp hx with h | h
      · subst h
        exact ⟨List.mem_cons_self x ys, hy⟩
      · rcases ih (y.1 :: seen) x h with ⟨hmem, hns⟩
        refine ⟨List.mem_cons_of_mem y hmem, fun hs => hns ?_⟩
        exact List.mem_cons_of_mem _ hs

/-- The de-duplicated frame has pairwise distinct dates. -/
theorem dedupAux_nodup : ∀ (seen : List Nat) (l : DF),
    (datesOf (dedupAux seen l)).Nodup := by
  intro seen l
  induction l generalizing seen with
  | nil => simp [dedupAux, datesOf]
  | cons x xs ih =>
    rw [dedupAux_cons]
    by_cases hx : x.1 ∈ seen
    · rw [if_pos hx]
      exact ih seen
    · rw [if_neg hx]
      simp only [datesOf, List.map_cons, List.nodup_cons]
      refine ⟨fun hmem => ?_, ih (x.1 :: seen)⟩
      rcases List.mem_map.mp hmem with ⟨y, hy, hyd⟩
      rcases mem_dedupAux _ _ y hy with ⟨_, hns⟩
      exact hns (hyd ▸ List.mem_cons_self x.1 seen)

/-- The seen-set only matters through membership. -/
theorem dedupAux_congr : ∀ (s₁ s₂ : List Nat) (l : DF),
    (∀ d, d ∈ s₁ ↔ d ∈ s₂) → dedupAux s₁ l = dedupAux s₂ l := by
  intro s₁ s₂ l
  induction l generalizing s₁ s₂ with
  | nil => intro _; rfl
  | cons x xs ih =>
    intro hiff
    rw [dedupAux_cons, dedupAux_cons]
    by_cases hx : x.1 ∈ s₁
    · rw [if_pos hx, if_pos ((hiff x.1).mp hx)]
      exact ih s₁ s₂ hiff
    · rw [if_neg hx, if_neg (fun h => hx ((hiff x.1).mpr h))]
      refine congrArg (x :: ·) (ih _ _ fun d => ?_)
      simp only [List.mem_cons]
      exact or_congr Iff.rfl (hiff d)

/-- Splitting a de-duplication across an append whose first part has
pairwise distinct, unseen dates: the first part survives whole. -/
theorem dedupAux_append (l₂ : DF) : ∀ (l₁ : DF) (seen : List Nat),
    (datesOf l₁).Nodup → (∀ x ∈ l₁, x.1 ∉ seen) →
    dedupAux seen (l₁ ++ l₂) = l₁ ++ dedupAux (datesOf l₁ ++ seen) l₂ := by
  intro l₁
  induction l₁ with
  | nil => intro seen _ _; simp [datesOf]
  | cons x t ih =>
    intro seen hnd hns
    have hx : x.1 ∉ seen := hns x (List.mem_cons_self x t)
    have hnd' : (x.1 :: datesOf t).Nodup := hnd
    have hxt : x.1 ∉ datesOf t := (List.nodup_cons.mp hnd').1
    have hndt : (datesOf t).Nodup := (List.nodup_cons.mp hnd').2
    have hnst : ∀ y ∈ t, y.1 ∉ (x.1 :: seen) := by
      intro y hy
      simp only [List.mem_cons]
      rintro (h | h)
      · exact hxt (h ▸ List.mem_map_of_mem (fun z => z.1) hy)
      · exact hns y (List.mem_cons_of_mem x hy) h
    show dedupAux seen (x :: (t ++ l₂)) =
      x :: (t ++ dedupAux (datesOf (x :: t) ++ seen) l₂)
    rw [dedupAux_cons, if_neg hx, ih (x.1 :: seen) hndt hnst]
    refine congrArg (fun z => x :: (t ++ z)) (dedupAux_congr _ _ _ fun d => ?_)
    show d ∈ datesOf t ++ (x.1 :: seen) ↔ d ∈ (x.1 :: datesOf t) ++ seen
    simp only [List.mem_append, List.mem_cons]
    tauto

/-- Label lookup is unchanged by de-duplication for an unseen date. -/
theorem lookupDate_dedupAux (d : Nat) : ∀ (seen : List Nat) (l : DF),
    d ∉ seen → lookupDate d (dedupAux seen l) = lookupDate d l := by
  intro seen l
  induction l generalizing seen with
  | nil => intro _; rfl
  | cons x xs ih =>
    intro hd
    rw [dedupAux_cons]
    by_cases hxd : x.1 = d
    · have hx : x.1 ∉ seen := fun hs => hd (hxd ▸ hs)
      rw [if_neg hx, lookupDate_cons_eq d x _ hxd, lookupDate_cons_eq d x xs hxd]
    · by_cases hx : x.1 ∈ seen
      · rw [if_pos hx, lookupDate_cons_ne d x xs hxd]
        exact ih seen hd
      · rw [if_neg hx, lookupDate_cons_ne d x _ hxd, lookupDate_cons_ne d x xs hxd]
        refine ih (x.1 :: seen) ?_
        simp only [List.mem_cons]
        rintro (h | h)
        · exact hxd h.symm
        · exact hd h

/-- Label lookup over an append resolves in the left part when the date
occurs there. -/
theorem lookupDate_append_left (d : Nat) : ∀ (l₁ l₂ : DF),
    d ∈ datesOf l₁ → lookupDate d (l₁ ++ l₂) = lookupDate d l₁ := by
  intro l₁ l₂
  induction l₁ with
  | nil => intro h; simp [datesOf] at h
  | cons x t ih =>
    intro hd
    show lookupDate d (x :: (t ++ l₂)) = lookupDate d (x :: t)
    by_cases hxd : x.1 = d
    · rw [lookupDate_cons_eq d x _ hxd, lookupDate_cons_eq d x t hxd]
    · rw [lookupDate_cons_ne d x _ hxd, lookupDate_cons_ne d x t hxd]
      refine ih ?_
      rcases List.mem_map.mp hd with ⟨y, hy, hyd⟩
      rcases List.mem_cons.mp hy with h | h
      · exact absurd (by rw [h] at hyd; exact hyd) hxd
      · exact hyd ▸ List.mem_map_of_mem (fun z => z.1) h

/-! Helper lemmas about the last valid index. -/

/-- A last valid position lies inside the frame. -/
theorem lastValidPos_lt_length : ∀ (l : DF) (p : Nat),
    lastValidPos l = some p → p < l.length := by
  intro l
  induction l with
  | nil => intro p hp; simp [lastValidPos] at hp
  | cons x xs ih =>
    intro p hp
    rw [lastValidPos] at hp
    rcases hrec : lastValidPos xs with _ | q
    · rw [hrec] at hp
      by_cases hv : rowAnyValid x.2
      · rw [if_pos hv] at hp
        cases hp
        simp
      · rw [if_neg hv] at hp
        cases hp
    · rw [hrec] at hp
      cases hp
      have := ih q hrec
      simp only [List.length_cons]
      omega

/-- The row at the last valid position has some non-NA entry. -/
theorem lastValidPos_getD_valid : ∀ (l : DF) (p : Nat),
    lastValidPos l = some p → rowAnyValid ((l.getD p (0, noneRow)).2) = true := by
  intro l
  induction l with
  | nil => intro p hp; simp [lastValidPos] at hp
  | cons x xs ih =>
    intro p hp
    rw [lastValidPos] at hp
    rcases hrec : lastValidPos xs with _ | q
    · rw [hrec] at hp
      by_cases hv : rowAnyValid x.2
      · rw [if_pos hv] at hp
        cases hp
        simpa using hv
      · rw [if_neg hv] at hp
        cases hp
    · rw [hrec] at hp
      cases hp
      simpa using ih q hrec

/-- When there is no valid row at all, every row is fully missing. -/
theorem lastValidPos_none_invalid : ∀ (l : DF),
    lastValidPos l = none → ∀ x ∈ l, rowAnyValid x.2 = false := by
  intro l
  induction l with
  | nil => intro _ x hx; simp at hx
  | cons y ys ih =>
    intro hn x hx
    rw [lastValidPos] at hn
    rcases hrec : lastValidPos ys with _ | q
    · rw [hrec] at hn
      by_cases hv : rowAnyValid y.2
      · rw [if_pos hv] at hn
        cases hn
      · rw [if_neg hv] at hn
        rcases List.mem_cons.mp hx with h | h
        · rw [h]
          exact Bool.of_not_eq_true hv
        · exact ih hrec x h
    · rw [hrec] at hn
      cases hn

/-- Nothing after the last valid position has a non-NA entry. -/
theorem lastValidPos_drop_invalid : ∀ (l : DF) (p : Nat),
    lastValidPos l = some p →
    ∀ x ∈ l.drop (p + 1), rowAnyValid x.2 = false := by
  intro l
  induction l with
  | nil => intro p hp; simp [lastValidPos] at hp
  | cons x xs ih =>
    intro p hp
    rw [lastValidPos] at hp
    rcases hrec : lastValidPos xs with _ | q
    · rw [hrec] at hp
      by_cases hv : rowAnyValid x.2
      · rw [if_pos hv] at hp
        cases hp
        intro y hy
        have hys : y ∈ xs := by simpa using hy
        exact lastValidPos_none_invalid xs hrec y hys
      · rw [if_neg hv] at hp
        cases hp
    · rw [hrec] at hp
      cases hp
      intro y hy
      exact ih q hrec y (by simpa using hy)

/-- In a strictly increasing frame, slicing through position `p` is the
same as keeping the dates at most the date at `p`. -/
theorem sorted_take_eq_filter : ∀ (l : DF) (p : Nat), p < l.length →
    StrictIncDates l →
    l.take (p + 1) = l.filter (fun x => x.1 ≤ (l.getD p (0, noneRow)).1) := by
  intro l
  induction l with
  | nil => intro p hp; simp at hp
  | cons x xs ih =>
    intro p hp hs
    have hhead : ∀ y ∈ xs, x.1 < y.1 := (List.pairwise_cons.mp hs).1
    have htail : StrictIncDates xs := (List.pairwise_cons.mp hs).2
    cases p with
    | zero =>
      have hgd : (x :: xs).getD 0 (0, noneRow) = x := rfl
      rw [hgd]
      have hnil : xs.filter (fun y => y.1 ≤ x.1) = [] := by
        rw [List.filter_eq_nil_iff]
        intro y hy
        simp only [decide_eq_true_eq]
        exact Nat.not_le_of_lt (hhead y hy)
      simp [List.filter_cons, hnil]
    | succ q =>
      have hq : q < xs.length := by
        simp only [List.length_cons] at hp
        omega
      have hgd : (x :: xs).getD (q + 1) (0, noneRow) = xs.getD q (0, noneRow) := rfl
      rw [hgd]
      have hmem : xs.getD q (0, noneRow) ∈ xs := by
        rw [List.getD_eq_getElem xs (0, noneRow) hq]
        exact List.getElem_mem hq
      have hxle : (decide (x.1 ≤ (xs.getD q (0, noneRow)).1)) = true := by
        simp only [decide_eq_true_eq]
        exact Nat.le_of_lt (hhead _ hmem)
      rw [List.take_succ_cons, List.filter_cons, hxle]
      simp only [if_true]
      exact congrArg (x :: ·) (ih q hq htail)

/-- The truncated historical frame is a sublist of the input. -/
theorem truncateToLastValid_sublist (l : DF) :
    (truncateToLastValid l).Sublist l := by
  rw [truncateToLastValid]
  rcases lastValidPos l with _ | p
  · exact List.Sublist.refl l
  · exact List.take_sublist (p + 1) l

/-! Helper lemmas tying submission, workers and the merged mapping. -/

/-- The merged mapping has one entry per processed point. -/
theorem runBatches_length (h f : GridDS) (subs : List (List Pt × Option Nat)) :
    (runBatches h f subs).length =
      (subs.map (fun s => (capPoints s.2 s.1).length)).sum := by
  rw [runBatches, List.length_flatten, List.map_map]
  refine congrArg List.sum (List.map_congr_left fun s _ => ?_)
  simp [process_point_batch]

/-- Without a cap, every batch is submitted with an unbounded budget. -/
theorem submitBatches_none : ∀ (cs : List (List Pt)) (pp : Nat),
    submitBatches none pp cs = cs.map (fun c => (c, none)) := by
  intro cs
  induction cs with
  | nil => intro pp; rfl
  | cons c cs' ih =>
    intro pp
    simp [submitBatches, capReached, remainingBudget, ih]

/-- A zero cap behaves exactly like no cap at submission time. -/
theorem submitBatches_some_zero : ∀ (cs : List (List Pt)) (pp : Nat),
    submitBatches (some 0) pp cs = submitBatches none pp cs := by
  intro cs
  induction cs with
  | nil => intro pp; rfl
  | cons c cs' ih =>
    intro pp
    simp [submitBatches, capReached, remainingBudget, ih]

/-- Uncapped batch processing over the chunks reproduces the per-point
results of the whole input sequence. -/
theorem runBatches_uncapped (h f : GridDS) (b : Nat) (hb : 1 ≤ b)
    (pts : List Pt) :
    runBatches h f (submitBatches none 0 (chunks b pts)) =
      pts.map (fun p => (p, pointResult h f p)) := by
  rw [submitBatches_none, runBatches]
  have hmap : (List.map (fun c => (c, (none : Option Nat))) (chunks b pts)).map
      (fun s => process_point_batch h f s.1 s.2) =
      (chunks b pts).map (fun c => c.map (fun p => (p, pointResult h f p))) := by
    rw [List.map_map]
    refine List.map_congr_left fun c _ => ?_
    simp [process_point_batch, capPoints_none]
  rw [hmap, ← List.map_flatten, chunks_flatten b hb]

/-! Helper lemmas about the dataframe store. -/

theorem store_getD_set (l : List DF) (i j : Nat) (v : DF) :
    (l.set i v).getD j [] = if i = j ∧ i < l.length then v else l.getD j [] := by
  rw [List.getD_eq_getElem?_getD, List.getElem?_set, List.getD_eq_getElem?_getD]
  by_cases hij : i = j
  · subst hij
    by_cases hi : i < l.length
    · simp [hi]
    · simp [hi, List.getElem?_eq_none (Nat.le_of_not_lt hi)]
  · simp [hij]

theorem readCell_append_new (s : DFStore) (r : Nat) :
    readCell ⟨s.cells ++ [readCell s r]⟩ s.cells.length = readCell s r := by
  show (s.cells ++ [readCell s r]).getD s.cells.length [] = readCell s r
  rw [List.getD_eq_getElem?_getD, List.getElem?_append_right (Nat.le_refl _)]
  simp

/-! Claim theorems. -/

/-- C4 (code bug evidence): combining an all-missing historical series
with a forecast series sharing its date does NOT yield the forecast
series: `last_valid_index()` is `None`, `loc[:None]` keeps the whole
all-NaN historical frame, and `keep="first"` then retains the NaN row
instead of the forecast row. -/
theorem all_missing_historical_shadows_forecast :
    combine_dataframes [(0, noneRow)] [(0, fullRow1)] = [(0, noneRow)] ∧
    combine_dataframes [(0, noneRow)] [(0, fullRow1)] ≠ [(0, fullRow1)] := by
  decide

/-- C5: the unit converter keeps every date, subtracts exactly 273.15
from tas, tasmax and tasmin, multiplies rsds by exactly 24, and leaves
hurs, pr and sfcWind untouched in every row. -/
theorem convert_units_exact (l : DF) :
    datesOf (convert_forecast_to_historical_units l) = datesOf l ∧
    ∀ p ∈ l,
      (p.1, VarRow.mk p.2.hurs p.2.pr (p.2.rsds.map (fun v => v * 24))
        p.2.sfcWind (p.2.tas.map (fun v => v - 273.15))
        (p.2.tasmax.map (fun v => v - 273.15))
        (p.2.tasmin.map (fun v => v - 273.15))) ∈
      convert_forecast_to_historical_units l := by
  constructor
  · rw [datesOf, convert_forecast_to_historical_units, List.map_map]
    rfl
  · intro p hp
    rw [convert_forecast_to_historical_units]
    refine List.mem_map.mpr ⟨p, hp, ?_⟩
    refine congrArg (fun z => (p.1, z)) ?_
    cases p.2 with
    | mk a b c d e f' g => simp [convertRow, mulRsds, subTemps]

/-- C5 witness: the conversion facts evaluated on a one-row series. -/
theorem convert_units_exact_witness :
    (0, VarRow.mk tasRow.hurs tasRow.pr (tasRow.rsds.map (fun v => v * 24))
      tasRow.sfcWind (tasRow.tas.map (fun v => v - 273.15))
      (tasRow.tasmax.map (fun v => v - 273.15))
      (tasRow.tasmin.map (fun v => v - 273.15))) ∈
    convert_forecast_to_historical_units [(0, tasRow)] :=
  (convert_units_exact [(0, tasRow)]).2 (0, tasRow) (List.mem_singleton_self _)

/-- C6 (counterexample): the converter DOES mutate its input dataframe
object: after `_convert_forecast_to_historical_units(df)` the cell the
caller passed no longer holds the untransformed values, which is what the
batch-processing path (line 64) hands it without a `.copy()`. -/
theorem converter_mutates_input :
    readCell (convert_units_inplace storeFix 0).1 0 ≠ readCell storeFix 0 := by
  have hne : (280 : ℚ) - 273.15 ≠ 280 := by norm_num
  intro heq
  apply hne
  have h1 : readCell (convert_units_inplace storeFix 0).1 0 =
      [(0, convertRow tasRow)] := rfl
  have h2 : readCell storeFix 0 = [(0, tasRow)] := rfl
  rw [h1, h2] at heq
  have hpair : ((0 : Nat), convertRow tasRow) = ((0 : Nat), tasRow) :=
    ((List.cons.injEq _ _ _ _).mp heq).1
  have hrow : convertRow tasRow = tasRow := ((Prod.mk.injEq _ _ _ _).mp hpair).2
  have htas : (convertRow tasRow).tas = tasRow.tas := congrArg VarRow.tas hrow
  have hsome : (some ((280 : ℚ) - 273.15) : Option ℚ) = some 280 := htas
  exact Option.some_inj.mp hsome

/-- C6 (amended): the converter transforms its argument cell in place
(so the batch path's input object is mutated to the converted values),
while the sequential path's copy-then-convert composition leaves the
caller's original cell unchanged. -/
theorem convert_copy_semantics (s : DFStore) (r : Nat) :
    readCell (convertViaCopy s r).1 r = readCell s r ∧
    readCell (convert_units_inplace s r).1 r =
      convert_forecast_to_historical_units (readCell s r) := by
  have hB : ∀ (t : DFStore) (q : Nat),
      readCell (convert_units_inplace t q).1 q =
        convert_forecast_to_historical_units (readCell t q) := by
    intro t q
    show (t.cells.set q
      (convert_forecast_to_historical_units (readCell t q))).getD q [] = _
    rw [store_getD_set]
    by_cases hq : q < t.cells.length
    · simp [hq]
    · have hnone : readCell t q = [] := by
        rw [readCell, List.getD_eq_getElem?_getD,
          List.getElem?_eq_none (Nat.le_of_not_lt hq)]
        rfl
      simp only [hq, and_false, if_false, hnone, convert_forecast_to_historical_units,
        List.map_nil]
      rw [List.getD_eq_getElem?_getD, List.getElem?_eq_none (Nat.le_of_not_lt hq)]
      rfl
  refine ⟨?_, hB s r⟩
  show ((s.cells ++ [readCell s r]).set s.cells.length
    (convert_forecast_to_historical_units
      (readCell ⟨s.cells ++ [readCell s r]⟩ s.cells.length))).getD r [] =
    readCell s r
  rw [store_getD_set]
  by_cases hr : s.cells.length = r
  · have hlen : ¬ r < s.cells.length := by omega
    have hnone : readCell s r = [] := by
      rw [readCell, List.getD_eq_getElem?_getD,
        List.getElem?_eq_none (Nat.le_of_not_lt hlen)]
      rfl
    have hcond : s.cells.length = r ∧
        s.cells.length < (s.cells ++ [readCell s r]).length := ⟨hr, by simp⟩
    rw [if_pos hcond, readCell_append_new, hnone]
    rfl
  · rw [if_neg (fun hc => hr hc.1)]
    by_cases hrlt : r < s.cells.length
    · rw [List.getD_eq_getElem?_getD, List.getElem?_append_left hrlt, readCell,
        List.getD_eq_getElem?_getD]
    · have hge : s.cells.length ≤ r := Nat.le_of_not_lt hrlt
      have h1 : (s.cells ++ [readCell s r])[r]? = none := by
        apply List.getElem?_eq_none
        simp only [List.length_append, List.length_singleton]
        omega
      rw [List.getD_eq_getElem?_getD, h1, readCell, List.getD_eq_getElem?_getD,
        List.getElem?_eq_none hge]

/-- C3 (counterexample): the combiner does not follow the spec's
"no missing value in any variable" reading of the last valid index; on a
history whose last row is only partially missing the source keeps it
(pandas any-non-NA semantics) while the spec-worded combiner drops it. -/
theorem combine_any_vs_all_valid :
    combine_dataframes [(0, fullRow1), (1, halfRow)] [(2, fullRow2)] ≠
      specCombineAllValid [(0, fullRow1), (1, halfRow)] [(2, fullRow2)] := by
  decide

/-- C3 (amended): for a date-sorted historical series with at least one
row having a non-missing entry, the code's last valid index is the latest
date at which AT LEAST ONE variable is non-missing, the truncation keeps
exactly the dates on or before that index, and the combination
concatenates that truncation with the forecast before de-duplicating. -/
theorem last_valid_any_semantics (h : DF) (p : Nat)
    (hs : StrictIncDates h) (hp : lastValidPos h = some p) :
    p < h.length ∧
    rowAnyValid ((h.getD p (0, noneRow)).2) = true ∧
    (∀ x ∈ h, rowAnyValid x.2 = true → x.1 ≤ (h.getD p (0, noneRow)).1) ∧
    truncateToLastValid h =
      h.filter (fun x => x.1 ≤ (h.getD p (0, noneRow)).1) ∧
    ∀ f, combine_dataframes h f =
      dedupAux [] (h.filter (fun x => x.1 ≤ (h.getD p (0, noneRow)).1) ++ f) := by
  have hlt := lastValidPos_lt_length h p hp
  have hval := lastValidPos_getD_valid h p hp
  have htake : truncateToLastValid h = h.take (p + 1) := by
    rw [truncateToLastValid, hp]
  have hfilt : truncateToLastValid h =
      h.filter (fun x => x.1 ≤ (h.getD p (0, noneRow)).1) := by
    rw [htake]
    exact sorted_take_eq_filter h p hlt hs
  refine ⟨hlt, hval, ?_, hfilt, ?_⟩
  · intro x hx hvx
    have hsplit : x ∈ h.take (p + 1) ++ h.drop (p + 1) := by
      rw [List.take_append_drop]
      exact hx
    rcases List.mem_append.mp hsplit with hT | hD
    · have hmem : x ∈ h.filter (fun x => x.1 ≤ (h.getD p (0, noneRow)).1) := by
        rw [← hfilt, htake]
        exact hT
      have := (List.mem_filter.mp hmem).2
      simpa using this
    · have := lastValidPos_drop_invalid h p hp x hD
      rw [hvx] at this
      cases this
  · intro f
    rw [combine_dataframes, hfilt]

/-- C3 witness: the amended characterisation evaluated on a concrete
sorted history whose last row is partially missing. -/
theorem last_valid_any_semantics_witness :
    truncateToLastValid [(0, fullRow1), (1, halfRow)] =
      List.filter
        (fun x => x.1 ≤ (([(0, fullRow1), (1, halfRow)] : DF).getD 1 (0, noneRow)).1)
        [(0, fullRow1), (1, halfRow)] :=
  (last_valid_any_semantics [(0, fullRow1), (1, halfRow)] 1
    (by decide) (by decide)).2.2.2.1

/-- C2 (counterexample): with a forecast date earlier than the retained
history and another forecast date sharing the date of a truncated-away
historical row, the combined frame is neither date-sorted nor
historical-winning on every input-shared date. -/
theorem combine_claim_counterexample :
    ¬ (StrictIncDates (combine_dataframes [(1, fullRow1), (2, noneRow)]
          [(0, fullRow2), (2, fullRow2)]) ∧
       NoDupDates (combine_dataframes [(1, fullRow1), (2, noneRow)]
          [(0, fullRow2), (2, fullRow2)]) ∧
       histWinsOnShared [(1, fullRow1), (2, noneRow)]
          [(0, fullRow2), (2, fullRow2)] = true) := by
  decide

/-- C2 (amended): the combined frame always has pairwise distinct dates;
on every date of the TRUNCATED historical side the retained row is the
historical one; and when both inputs are date-sorted and every forecast
date either already occurs in the truncated history or lies beyond all of
its dates, the combined index is strictly increasing. -/
theorem combine_nodup_sorted_hist_wins (hi fc : DF)
    (hh : StrictIncDates hi) (hf : StrictIncDates fc)
    (hcond : ∀ x ∈ fc, x.1 ∉ datesOf (truncateToLastValid hi) →
      ∀ y ∈ truncateToLastValid hi, y.1 < x.1) :
    NoDupDates (combine_dataframes hi fc) ∧
    StrictIncDates (combine_dataframes hi fc) ∧
    ∀ d ∈ datesOf (truncateToLastValid hi),
      lookupDate d (combine_dataframes hi fc) =
        lookupDate d (truncateToLastValid hi) := by
  have hHs : StrictIncDates (truncateToLastValid hi) :=
    List.Pairwise.sublist (truncateToLastValid_sublist hi) hh
  have hHnd : (datesOf (truncateToLastValid hi)).Nodup := by
    have hplt : (datesOf (truncateToLastValid hi)).Pairwise (· < ·) := by
      rw [datesOf, List.pairwise_map]
      exact hHs
    exact hplt.imp Nat.ne_of_lt
  refine ⟨dedupAux_nodup [] _, ?_, ?_⟩
  · have happ : dedupAux [] (truncateToLastValid hi ++ fc) =
        truncateToLastValid hi ++
          dedupAux (datesOf (truncateToLastValid hi) ++ []) fc :=
      dedupAux_append fc (truncateToLastValid hi) [] hHnd (by simp)
    rw [combine_dataframes, happ]
    refine List.pairwise_append.mpr
      ⟨hHs, List.Pairwise.sublist (dedupAux_sublist _ fc) hf, ?_⟩
    intro a ha b hb
    rcases mem_dedupAux _ _ b hb with ⟨hbf, hbs⟩
    have hbnot : b.1 ∉ datesOf (truncateToLastValid hi) := fun hmem =>
      hbs (by simpa using hmem)
    exact hcond b hbf hbnot a ha
  · intro d hd
    rw [combine_dataframes, lookupDate_dedupAux d [] _ (by simp)]
    exact lookupDate_append_left d (truncateToLastValid hi) fc hd

/-- C2 witness: sortedness of the combination on a concrete pair of
sorted series whose forecast overlaps the history on its last date. -/
theorem combine_nodup_sorted_hist_wins_witness :
    StrictIncDates (combine_dataframes [(0, fullRow1), (1, fullRow1)]
      [(1, fullRow2), (2, fullRow2)]) :=
  (combine_nodup_sorted_hist_wins [(0, fullRow1), (1, fullRow1)]
    [(1, fullRow2), (2, fullRow2)] (by decide) (by decide) (by decide)).2.1

/-- C1: under a positive global cap `m`, no batch is submitted once the
submitted-point count has reached `m`; every submitted batch carries a
positive remaining budget bounding what its worker processes; and the
parallel entry point's final mapping has at most `m` entries. -/
theorem parallel_global_cap_bound (m b : Nat) (hm : 1 ≤ m) (hb : 1 ≤ b) :
    (∀ (pp : Nat) (cs : List (List Pt)), m ≤ pp →
      submitBatches (some m) pp cs = []) ∧
    (∀ (pp : Nat) (cs : List (List Pt)) (c : List Pt) (bud : Option Nat),
      (c, bud) ∈ submitBatches (some m) pp cs →
      ∃ k, bud = some k ∧ 1 ≤ k ∧ (capPoints bud c).length ≤ k) ∧
    (∀ (hist fc : Option GridDS) (mask : List (List Bool)) (ncpu : Nat),
      ∃ l, extract_variables_over_years_parallel hist fc mask (some b) (some m)
          ncpu = Except.ok l ∧ l.length ≤ m) := by
  have hm0 : m ≠ 0 := by omega
  refine ⟨?_, ?_, ?_⟩
  · intro pp cs hpp
    exact submitBatches_stop m hm0 pp hpp cs
  · intro pp cs c bud hmem
    rcases submitBatches_mem_budget m hm0 cs pp c bud hmem with ⟨ppc, _, hlt, hbud⟩
    refine ⟨m - ppc, hbud, by omega, ?_⟩
    rw [hbud]
    exact capPoints_length_le (m - ppc) (by omega) c
  · intro hist fc mask ncpu
    cases hist with
    | none =>
      cases fc with
      | none => exact ⟨[], rfl, by simp⟩
      | some f => exact ⟨[], rfl, by simp⟩
    | some h =>
      cases fc with
      | none => exact ⟨[], rfl, by simp⟩
      | some f =>
        refine ⟨runBatches h f (submitBatches (some m) 0
          (chunks b (validPoints mask h.lats h.lons))), rfl, ?_⟩
        rw [runBatches_length]
        have hsum := submitBatches_processed_le m hm0
          (chunks b (validPoints mask h.lats h.lons)) 0
        omega

/-- C1 witness: the spec's cap example, 10 valid points in batches of 3
under a global cap of 5. -/
theorem parallel_global_cap_bound_witness :
    ∃ l, extract_variables_over_years_parallel (some histGridFix)
        (some fcGridFix) maskFix (some 3) (some 5) 1 = Except.ok l ∧
      l.length ≤ 5 :=
  (parallel_global_cap_bound 5 3 (by decide) (by decide)).2.2
    (some histGridFix) (some fcGridFix) maskFix 1

/-- C7: with no cap, the batches are contiguous slices whose
concatenation reproduces the input point sequence, the batch lengths sum
to the input length, only the final batch may be shorter than the nominal
size, and the parallel entry point reproduces exactly the per-point
results of the whole valid-point sequence. -/
theorem batch_partition_reconstructs (b : Nat) (hb : 1 ≤ b) :
    (∀ (pts : List Pt), (chunks b pts).flatten = pts) ∧
    (∀ (pts : List Pt), ((chunks b pts).map List.length).sum = pts.length) ∧
    (∀ (pts : List Pt), ∀ c ∈ (chunks b pts).dropLast, c.length = b) ∧
    (∀ (pts : List Pt), ∀ c ∈ chunks b pts, 0 < c.length ∧ c.length ≤ b) ∧
    (∀ (h f : GridDS) (mask : List (List Bool)) (ncpu : Nat),
      extract_variables_over_years_parallel (some h) (some f) mask (some b)
          none ncpu =
        Except.ok ((validPoints mask h.lats h.lons).map
          fun p => (p, pointResult h f p))) := by
  refine ⟨fun pts => chunks_flatten b hb pts, ?_, ?_, ?_, ?_⟩
  · intro pts
    rw [← List.length_flatten, chunks_flatten b hb]
  · intro pts
    exact (chunksAux_shape b hb pts.length pts (Nat.le_refl _)).1
  · intro pts
    exact (chunksAux_shape b hb pts.length pts (Nat.le_refl _)).2
  · intro h f mask ncpu
    show Except.ok (runBatches h f (submitBatches none 0
      (chunks b (validPoints mask h.lats h.lons)))) = _
    rw [runBatches_uncapped h f b hb]

/-- C7 witness: an odd-length point list split into batches of two. -/
theorem batch_partition_reconstructs_witness :
    (chunks 2 ([(1, 3), (1, 4), (2, 3)] : List Pt)).flatten =
      [(1, 3), (1, 4), (2, 3)] :=
  (batch_partition_reconstructs 2 (by decide)).1 _

/-- C8 (code bug evidence): the loader does return "no dataset" on an
empty file set, and the parallel entry point turns a missing dataset into
an empty mapping, but `extract_variables_over_years`, `extract_amber_data`
and `extract_forecast_data` all call `.load()` on the `None` result before
their own emptiness guard and so raise instead of returning `{}`. -/
theorem missing_dataset_behavior :
    load_netcdf_data [[], []] = none ∧
    extract_variables_over_years none (some fcGridFix) maskFix none =
      Except.error "AttributeError" ∧
    extract_amber_data none [(1, 3)] none = Except.error "AttributeError" ∧
    extract_forecast_data none [(1, 3)] none = Except.error "AttributeError" ∧
    extract_variables_over_years_parallel none (some fcGridFix) maskFix
      (some 2) (some 5) 1 = Except.ok [] ∧
    extract_variables_over_years_parallel (some histGridFix) none maskFix
      (some 2) none 1 = Except.ok [] :=
  ⟨rfl, rfl, rfl, rfl, rfl, rfl⟩

/-- C9 (code bug evidence): an all-false mask yields an empty point
sequence; the parallel entry point then returns the empty mapping, but the
sequential entry point's final progress print reads the loop variable
`count` that the empty loop never bound, raising `UnboundLocalError`
instead of returning `{}`. -/
theorem empty_mask_behavior :
    validPoints maskFalse histGridFix.lats histGridFix.lons = [] ∧
    extract_variables_over_years (some histGridFix) (some fcGridFix)
      maskFalse none = Except.error "UnboundLocalError" ∧
    extract_variables_over_years_parallel (some histGridFix) (some fcGridFix)
      maskFalse (some 2) none 1 = Except.ok [] :=
  ⟨rfl, rfl, rfl⟩

/-- C10: a zero `max_points` is falsy in every cap guard, so it disables
the cap (every valid point is processed, and workers get an unbounded
budget), unlike every positive cap which bounds processing by its value. -/
theorem zero_cap_disables_limit :
    (∀ (l : List Pt), capPoints (some 0) l = l) ∧
    (∀ (hist fc : Option GridDS) (mask : List (List Bool)),
      extract_variables_over_years hist fc mask (some 0) =
        extract_variables_over_years hist fc mask none) ∧
    (∀ (hist fc : Option GridDS) (mask : List (List Bool)) (bs : Option Nat)
      (ncpu : Nat),
      extract_variables_over_years_parallel hist fc mask bs (some 0) ncpu =
        extract_variables_over_years_parallel hist fc mask bs none ncpu) ∧
    (∀ (amber : Option GridDS) (pts : List Pt),
      extract_amber_data amber pts (some 0) =
        extract_amber_data amber pts none) ∧
    (∀ (fc : Option GridDS) (pts : List Pt),
      extract_forecast_data fc pts (some 0) =
        extract_forecast_data fc pts none) ∧
    (∀ (mq : Nat), 1 ≤ mq → ∀ (l : List Pt),
      (capPoints (some mq) l).length ≤ mq) := by
  refine ⟨fun l => capPoints_some_zero l, ?_, ?_, ?_, ?_, ?_⟩
  · intro hist fc mask
    cases hist with
    | none => rfl
    | some h =>
      cases fc with
      | none => rfl
      | some f =>
        simp only [extract_variables_over_years, capPoints_some_zero,
          capPoints_none]
  · intro hist fc mask bs ncpu
    cases hist with
    | none =>
      cases fc with
      | none => rfl
      | some f => rfl
    | some h =>
      cases fc with
      | none => rfl
      | some f =>
        simp only [extract_variables_over_years_parallel]
        rw [submitBatches_some_zero]
  · intro amber pts
    cases amber with
    | none => rfl
    | some a =>
      simp only [extract_amber_data, capPoints_some_zero, capPoints_none]
  · intro fc pts
    cases fc with
    | none => rfl
    | some f =>
      simp only [extract_forecast_data, capPoints_some_zero, capPoints_none]
  · intro mq hmq l
    exact capPoints_length_le mq (by omega) l

/-- C10 witness: a zero cap keeps both points of a two-point list, while
a cap of one keeps at most one. -/
theorem zero_cap_disables_limit_witness :
    capPoints (some 0) ([(1, 3), (2, 4)] : List Pt) = [(1, 3), (2, 4)] ∧
    (capPoints (some 1) ([(1, 3), (2, 4)] : List Pt)).length ≤ 1 :=
  ⟨zero_cap_disables_limit.1 _,
    zero_cap_disables_limit.2.2.2.2.2 1 (by decide) _⟩
